import Mathlib

/-!
RocksEngine (nebula kvstore): partition registry, key codec and status mapping.

A shallow embedding of `src/kvstore/RocksEngine.cpp`.  The underlying ordered
store is a list of key/value entries kept in ascending bytewise key order; the
outcome of each call into the underlying store is an explicit `Status` input.
-/

namespace nebula
namespace kvstore

/-! ## Bytes, keys and the underlying ordered store -/

abbrev Byte := Fin 256
abbrev Key := List Byte
abbrev Value := List Byte
abbrev Store := List (Key × Value)

/-- Bytewise comparison of two keys, the default order of the underlying store:
the first differing byte decides (bytes compared unsigned), and a proper
beginning of a key sorts before that key. -/
def keyLt : Key → Key → Bool
  | [], [] => false
  | [], _ :: _ => true
  | _ :: _, [] => false
  | a :: as, b :: bs =>
    if a.val < b.val then true
    else if b.val < a.val then false
    else keyLt as bs

/-- Slice `starts_with`: the key begins with the bytes of `pfx`. -/
def startsWith : Key → Key → Bool
  | _, [] => true
  | [], _ :: _ => false
  | a :: as, p :: ps => if a = p then startsWith as ps else false

/-- Status codes of the underlying store. -/
inductive Status where
  | kOk
  | kNotFound
  | kCorruption
  | kNotSupported
  | kInvalidArgument
  | kIOError
  | kMergeInProgress
  | kIncomplete
  | kShutdownInProgress
  | kTimedOut
  | kAborted
  | kBusy
  | kExpired
  | kTryAgain
  deriving DecidableEq

namespace Status

def ok (s : Status) : Bool := decide (s = kOk)

def IsNotFound (s : Status) : Bool := decide (s = kNotFound)

end Status

/-- Modelled from the spec: the closed error taxonomy of section 7 (the
enumeration itself is declared in a header that is not part of the sources). -/
inductive ResultCode where
  | SUCCEEDED
  | ERR_KEY_NOT_FOUND
  | ERR_INVALID_ARGUMENT
  | ERR_UNKNOWN
  deriving DecidableEq

namespace Store

/-- The entries are in strictly ascending key order (so keys are unique). -/
def WF (db : Store) : Prop := db.Pairwise (fun a b => keyLt a.1 b.1 = true)

instance (db : Store) : Decidable (WF db) := by
  unfold WF
  infer_instance

/-- Point lookup in the store. -/
def lookup (key : Key) : Store → Option Value
  | [] => none
  | (k, v) :: rest => if k = key then some v else lookup key rest

/-- Write of one entry: overwrites the entry of an equal key, otherwise inserts
at the key's place in the order. -/
def insert (key : Key) (value : Value) : Store → Store
  | [] => [(key, value)]
  | (k, v) :: rest =>
    if keyLt key k then (key, value) :: (k, v) :: rest
    else if key = k then (key, value) :: rest
    else (k, v) :: insert key value rest

/-- Delete of one key; deleting an absent key changes nothing. -/
def erase (key : Key) (db : Store) : Store :=
  db.filter (fun kv => decide (kv.1 ≠ key))

/-- Cursor `Seek`: the entries from the first key that is not below `target`. -/
def seek (target : Key) (db : Store) : Store :=
  db.dropWhile (fun kv => keyLt kv.1 target)

end Store

/-- Underlying `DB::Get`.  `io` is what the store's I/O reports for this call:
when it is not ok the call fails with it, otherwise the lookup decides between
ok (with the stored value) and not-found. -/
def dbGet (db : Store) (io : Status) (key : Key) : Status × Option Value :=
  if io.ok then
    match db.lookup key with
    | some v => (Status.kOk, some v)
    | none => (Status.kNotFound, none)
  else (io, none)

/-- Underlying `DB::Put`: a failed write leaves the store as it was. -/
def dbPut (db : Store) (io : Status) (key : Key) (value : Value) : Status × Store :=
  if io.ok then (Status.kOk, db.insert key value) else (io, db)

/-- Underlying `DB::Write` of a batch of puts, applied in order, all or none. -/
def dbWritePuts (db : Store) (io : Status) (updates : List (Key × Value)) : Status × Store :=
  if io.ok then (Status.kOk, updates.foldl (fun d kv => d.insert kv.1 kv.2) db) else (io, db)

/-- Underlying `DB::Delete`: deleting an absent key is ok as well. -/
def dbDelete (db : Store) (io : Status) (key : Key) : Status × Store :=
  if io.ok then (Status.kOk, db.erase key) else (io, db)

/-- Underlying `DB::MultiGet`: one status and one value slot per requested key. -/
def dbMultiGet (db : Store) (io : Key → Status) (keys : List Key) :
    List Status × List Value :=
  (keys.map (fun k => (dbGet db (io k) k).1),
   keys.map (fun k => ((dbGet db (io k) k).2).getD []))

/-! ## The engine -/

/-- Byte order of the host, which `partKey` and `allParts` expose by copying
the identifier's memory representation. -/
inductive ByteOrder where
  | little
  | big
  deriving DecidableEq

/-- The bytes `__system__parts__`. -/
def kSystemParts : Key :=
  [95, 95, 115, 121, 115, 116, 101, 109, 95, 95, 112, 97, 114, 116, 115, 95, 95]

def prefixLen : Nat := kSystemParts.length

/-- Size in bytes of a PartitionID, a 32-bit signed integer. -/
def sizeofPartitionID : Nat := 4

/-- Value of a signed 32-bit integer after wrap-around. -/
def wrapInt32 (x : Int) : Int := (x + 2147483648) % 4294967296 - 2147483648

/-- Byte `i` (from the least significant) of a natural number. -/
def byteAt (u : Nat) (i : Nat) : Byte := ⟨(u / 256 ^ i) % 256, Nat.mod_lt _ (by decide)⟩

/-- Memory representation of a PartitionID (two's complement, host byte order). -/
def int32Bytes (host : ByteOrder) (x : Int) : List Byte :=
  let u := (x % 4294967296).toNat
  match host with
  | ByteOrder.little => [byteAt u 0, byteAt u 1, byteAt u 2, byteAt u 3]
  | ByteOrder.big => [byteAt u 3, byteAt u 2, byteAt u 1, byteAt u 0]

/-- Reading a PartitionID back from four bytes of memory. -/
def int32OfBytes (host : ByteOrder) (bs : List Byte) : Int :=
  match bs with
  | [a, b, c, d] =>
    let u : Nat :=
      match host with
      | ByteOrder.little => a.val + 256 * b.val + 65536 * c.val + 16777216 * d.val
      | ByteOrder.big => d.val + 256 * c.val + 65536 * b.val + 16777216 * a.val
    wrapInt32 u
  | _ => 0

structure RocksEngine where
  db_ : Store
  partsNum_ : Int
  deriving DecidableEq

namespace RocksEngine

def get (e : RocksEngine) (io : Status) (key : Key) : ResultCode × Option Value :=
  let r := dbGet e.db_ io key
  if r.1.ok then (ResultCode.SUCCEEDED, r.2)
  else if r.1.IsNotFound then (ResultCode.ERR_KEY_NOT_FOUND, r.2)
  else (ResultCode.ERR_UNKNOWN, r.2)

def multiGet (e : RocksEngine) (io : Key → Status) (keys : List Key) :
    ResultCode × List Value :=
  let r := dbMultiGet e.db_ io keys
  let code := r.1.all (fun s => s.ok)
  if code then (ResultCode.SUCCEEDED, r.2) else (ResultCode.ERR_UNKNOWN, r.2)

def put (e : RocksEngine) (io : Status) (key : Key) (value : Value) :
    ResultCode × RocksEngine :=
  let r := dbPut e.db_ io key value
  if r.1.ok then (ResultCode.SUCCEEDED, { e with db_ := r.2 })
  else (ResultCode.ERR_UNKNOWN, { e with db_ := r.2 })

def multiPut (e : RocksEngine) (io : Status) (keyValues : List (Key × Value)) :
    ResultCode × RocksEngine :=
  let r := dbWritePuts e.db_ io keyValues
  if r.1.ok then (ResultCode.SUCCEEDED, { e with db_ := r.2 })
  else (ResultCode.ERR_UNKNOWN, { e with db_ := r.2 })

/-- Modelled from the spec: the iterator handed out by the engine's prefix scan
(the class RocksPrefixIter is declared in a header that is not part of the
sources).  As in the source, the cursor is sought to the first key not below
`pfx`; the iterator is the list of entries from the cursor on.  By section 4.3
it is valid while an entry is under the cursor and that entry's key begins with
`pfx`, and `next` moves the cursor on by one entry. -/
def prefixIter (e : RocksEngine) (pfx : Key) : ResultCode × Store :=
  (ResultCode.SUCCEEDED, Store.seek pfx e.db_)

def partKey (host : ByteOrder) (partId : Int) : Key :=
  kSystemParts ++ int32Bytes host partId

def addPart (host : ByteOrder) (e : RocksEngine) (io : Status) (partId : Int) :
    Option RocksEngine :=
  let r := e.put io (partKey host partId) []
  if r.1 = ResultCode.SUCCEEDED then
    let n := wrapInt32 (r.2.partsNum_ + 1)
    if 0 ≤ n then some { r.2 with partsNum_ := n } else none
  else some r.2

def removePart (host : ByteOrder) (e : RocksEngine) (io : Status) (partId : Int) :
    Option RocksEngine :=
  let r := dbDelete e.db_ io (partKey host partId)
  if r.1.ok then
    let n := wrapInt32 (e.partsNum_ - 1)
    if 0 ≤ n then some { db_ := r.2, partsNum_ := n } else none
  else some { e with db_ := r.2 }

/-- The identifier read from the last bytes of a marker key, as `allParts` reads it. -/
def trailingId (host : ByteOrder) (key : Key) : Int :=
  int32OfBytes host (key.drop (key.length - sizeofPartitionID))

/-- The loop of `allParts` over the iterator: it runs while the iterator is
valid (an entry is left and its key begins with the reserved bytes), and the
result is `none` when the length check on a key fails. -/
def allPartsLoop (host : ByteOrder) : Store → List Int → Option (List Int)
  | [], parts => some parts
  | (key, _) :: rest, parts =>
    if startsWith key kSystemParts then
      if key.length = prefixLen + sizeofPartitionID then
        allPartsLoop host rest (parts ++ [trailingId host key])
      else none
    else some parts

def allParts (host : ByteOrder) (e : RocksEngine) : Option (List Int) :=
  let r := e.prefixIter kSystemParts
  if r.1 = ResultCode.SUCCEEDED then allPartsLoop host r.2 [] else none

def totalPartsNum (e : RocksEngine) : Int := e.partsNum_

/-- The constructor, from the content of the store found at the data path:
the count is seeded from the size of `allParts`. -/
def construct (host : ByteOrder) (db : Store) : Option RocksEngine :=
  let e : RocksEngine := { db_ := db, partsNum_ := 0 }
  match allParts host e with
  | some parts => some { e with partsNum_ := wrapInt32 parts.length }
  | none => none

def setOption (_e : RocksEngine) (status : Status) (_configKey _configValue : List Byte) :
    ResultCode :=
  if status.ok then ResultCode.SUCCEEDED else ResultCode.ERR_INVALID_ARGUMENT

def setDBOption (_e : RocksEngine) (status : Status) (_configKey _configValue : List Byte) :
    ResultCode :=
  if status.ok then ResultCode.SUCCEEDED else ResultCode.ERR_INVALID_ARGUMENT

end RocksEngine

open RocksEngine

/-- The entries of the store whose key begins with the reserved bytes. -/
def markers (db : Store) : Store :=
  db.filter (fun kv => startsWith kv.1 kSystemParts)

/-- Every marker key has the length that `allParts` checks. -/
def markersSized (db : Store) : Bool :=
  (markers db).all (fun kv => decide (kv.1.length = prefixLen + sizeofPartitionID))

/-! ## The identifier codec -/

theorem int32Bytes_length (host : ByteOrder) (x : Int) : (int32Bytes host x).length = 4 := by
  cases host <;> rfl

theorem int32OfBytes_int32Bytes (host : ByteOrder) (x : Int)
    (hlo : -2147483648 ≤ x) (hhi : x < 2147483648) :
    int32OfBytes host (int32Bytes host x) = x := by
  obtain ⟨u, hu⟩ : ∃ u : Nat, (x % 4294967296).toNat = u := ⟨_, rfl⟩
  have hu2 : (u : Int) = x % 4294967296 := by
    rw [← hu]; exact Int.toNat_of_nonneg (Int.emod_nonneg _ (by decide))
  cases host <;>
    simp only [int32Bytes, int32OfBytes, byteAt, wrapInt32, hu] <;>
    push_cast <;> omega

theorem toNat_wrapInt32_emod (u : Nat) (hu : u < 4294967296) :
    ((wrapInt32 (u : Int)) % 4294967296).toNat = u := by
  unfold wrapInt32
  omega

theorem int32Bytes_int32OfBytes (host : ByteOrder) (a b c d : Byte) :
    int32Bytes host (int32OfBytes host [a, b, c, d]) = [a, b, c, d] := by
  have ha := a.isLt
  have hb := b.isLt
  have hc := c.isLt
  have hd := d.isLt
  cases host
  · have h := toNat_wrapInt32_emod (a.val + 256 * b.val + 65536 * c.val + 16777216 * d.val)
      (by omega)
    simp only [int32Bytes, int32OfBytes, byteAt, h]
    simp only [List.cons.injEq, and_true, Fin.ext_iff]
    refine ⟨?_, ?_, ?_, ?_⟩ <;> omega
  · have h := toNat_wrapInt32_emod (d.val + 256 * c.val + 65536 * b.val + 16777216 * a.val)
      (by omega)
    simp only [int32Bytes, int32OfBytes, byteAt, h]
    simp only [List.cons.injEq, and_true, Fin.ext_iff]
    refine ⟨?_, ?_, ?_, ?_⟩ <;> omega

/-! ## The bytewise key order -/

theorem keyLt_irrefl (a : Key) : keyLt a a = false := by
  induction a with
  | nil => rfl
  | cons x xs ih => simp [keyLt, ih]

theorem keyLt_cons (a b : Byte) (as bs : Key) :
    keyLt (a :: as) (b :: bs) = true ↔ a.val < b.val ∨ (a = b ∧ keyLt as bs = true) := by
  simp only [keyLt, Fin.ext_iff]
  split
  · simp_all
  · split
    · constructor
      · intro h; cases h
      · rintro (h | ⟨h, _⟩) <;> omega
    · constructor
      · intro h; exact Or.inr ⟨by omega, h⟩
      · rintro (h | ⟨_, h⟩)
        · omega
        · exact h

theorem keyLt_trans : ∀ (a b c : Key), keyLt a b = true → keyLt b c = true → keyLt a c = true
  | [], [], _, h, _ => by simp [keyLt] at h
  | [], _ :: _, [], _, h => by simp [keyLt] at h
  | [], _ :: _, _ :: _, _, _ => by simp [keyLt]
  | _ :: _, [], _, h, _ => by simp [keyLt] at h
  | _ :: _, _ :: _, [], _, h => by simp [keyLt] at h
  | x :: xs, y :: ys, z :: zs, h1, h2 => by
    rw [keyLt_cons] at h1 h2 ⊢
    rcases h1 with h1 | ⟨h1, h1t⟩
    · rcases h2 with h2 | ⟨h2, _⟩
      · exact Or.inl (by omega)
      · subst h2; exact Or.inl h1
    · subst h1
      rcases h2 with h2 | ⟨h2, h2t⟩
      · exact Or.inl h2
      · exact Or.inr ⟨h2, keyLt_trans xs ys zs h1t h2t⟩

theorem keyLt_total : ∀ (a b : Key), keyLt a b = false → a ≠ b → keyLt b a = true
  | [], [], _, h => absurd rfl h
  | [], _ :: _, h, _ => by simp [keyLt] at h
  | _ :: _, [], _, _ => by simp [keyLt]
  | x :: xs, y :: ys, h, hne => by
    rw [keyLt_cons]
    have h1 : ¬ (x.val < y.val ∨ (x = y ∧ keyLt xs ys = true)) := by
      rw [← keyLt_cons]; simp [h]
    by_cases hxy : y.val < x.val
    · exact Or.inl hxy
    · have hyx : y = x := by
        apply Fin.ext
        have : ¬ x.val < y.val := fun hh => h1 (Or.inl hh)
        omega
      subst hyx
      refine Or.inr ⟨rfl, ?_⟩
      apply keyLt_total xs ys
      · cases hk : keyLt xs ys
        · rfl
        · exact absurd (Or.inr ⟨rfl, hk⟩) h1
      · intro hh; exact hne (by rw [hh])

theorem startsWith_cons (a p : Byte) (as ps : Key) :
    startsWith (a :: as) (p :: ps) = true ↔ a = p ∧ startsWith as ps = true := by
  simp [startsWith]

theorem startsWith_iff : ∀ (k p : Key), startsWith k p = true ↔ ∃ t, k = p ++ t
  | k, [] => by simp [startsWith]
  | [], _ :: _ => by simp [startsWith]
  | a :: as, p :: ps => by
    rw [startsWith_cons, startsWith_iff as ps]
    constructor
    · rintro ⟨rfl, t, rfl⟩; exact ⟨t, rfl⟩
    · rintro ⟨t, ht⟩
      simp only [List.cons_append, List.cons.injEq] at ht
      exact ⟨ht.1, t, ht.2⟩

/-- A key that begins with `p` is not below `p`. -/
theorem keyLt_of_startsWith : ∀ (k p : Key), startsWith k p = true → keyLt k p = false
  | [], [] => by simp [keyLt]
  | _ :: _, [] => by simp [keyLt]
  | [], _ :: _ => by simp [startsWith]
  | a :: as, p :: ps => by
    intro h
    rw [startsWith_cons] at h
    obtain ⟨rfl, h⟩ := h
    have ih := keyLt_of_startsWith as ps h
    simp [keyLt, ih]

/-- Past the keys that begin with `p`: a key that is not below `p` and does not
begin with `p` is followed only by keys that do not begin with `p`. -/
theorem startsWith_of_keyLt : ∀ (p k k2 : Key), keyLt k p = false → startsWith k p = false →
    keyLt k k2 = true → startsWith k2 p = false
  | [], k, _, _, h, _ => by simp [startsWith] at h
  | _ :: _, [], _, h, _, _ => by simp [keyLt] at h
  | _ :: _, _ :: _, [], _, _, h => by simp [keyLt] at h
  | q :: ps, a :: as, b :: bs, h1, h2, h3 => by
    rw [keyLt_cons] at h3
    have h1n : ¬ (a.val < q.val ∨ (a = q ∧ keyLt as ps = true)) := by
      rw [← keyLt_cons]; simp [h1]
    have h2n : ¬ (a = q ∧ startsWith as ps = true) := by
      rw [← startsWith_cons]; simp [h2]
    cases hgoal : startsWith (b :: bs) (q :: ps)
    · rfl
    · rw [startsWith_cons] at hgoal
      obtain ⟨rfl, hb⟩ := hgoal
      exfalso
      rcases h3 with h3 | ⟨rfl, h3⟩
      · exact h1n (Or.inl h3)
      · have hk : keyLt as ps = false := by
          cases hk : keyLt as ps
          · rfl
          · exact absurd (Or.inr ⟨rfl, hk⟩) h1n
        have hs : startsWith as ps = false := by
          cases hs : startsWith as ps
          · rfl
          · exact absurd ⟨rfl, hs⟩ h2n
        have := startsWith_of_keyLt ps as bs hk hs h3
        rw [hb] at this
        cases this

/-! ## The store: order is kept, markers are the scanned entries -/

theorem Store.mem_insert (key : Key) (value : Value) (x : Key × Value) :
    ∀ (db : Store), x ∈ Store.insert key value db → x = (key, value) ∨ x ∈ db
  | [] => by simp [Store.insert]
  | (k, v) :: rest => by
    simp only [Store.insert]
    split
    · intro h; simpa using h
    · split
      · intro h
        rcases List.mem_cons.1 h with h | h
        · exact Or.inl h
        · exact Or.inr (List.mem_cons_of_mem _ h)
      · intro h
        rcases List.mem_cons.1 h with h | h
        · exact Or.inr (by rw [h]; exact List.mem_cons_self _ _)
        · rcases Store.mem_insert key value x rest h with h | h
          · exact Or.inl h
          · exact Or.inr (List.mem_cons_of_mem _ h)

theorem Store.mem_insert_self (key : Key) (value : Value) :
    ∀ (db : Store), (key, value) ∈ Store.insert key value db
  | [] => by simp [Store.insert]
  | (k, v) :: rest => by
    simp only [Store.insert]
    split
    · exact List.mem_cons_self _ _
    · split
      · exact List.mem_cons_self _ _
      · exact List.mem_cons_of_mem _ (Store.mem_insert_self key value rest)

theorem Store.insert_WF (key : Key) (value : Value) :
    ∀ (db : Store), db.WF → (Store.insert key value db).WF
  | [], _ => by simp [Store.insert, Store.WF]
  | (k, v) :: rest, h => by
    have hc := List.pairwise_cons.1 h
    simp only [Store.insert]
    split
    · rename_i hlt
      refine List.pairwise_cons.2 ⟨?_, h⟩
      intro x hx
      rcases List.mem_cons.1 hx with hx | hx
      · rw [hx]; exact hlt
      · exact keyLt_trans _ _ _ hlt (hc.1 x hx)
    · split
      · rename_i heq
        refine List.pairwise_cons.2 ⟨?_, hc.2⟩
        intro x hx
        rw [heq]
        exact hc.1 x hx
      · rename_i hnlt hne
        refine List.pairwise_cons.2 ⟨?_, Store.insert_WF key value rest hc.2⟩
        intro x hx
        rcases Store.mem_insert key value x rest hx with hx | hx
        · rw [hx]
          exact keyLt_total key k (by simpa using hnlt) hne
        · exact hc.1 x hx

theorem Store.erase_WF (key : Key) (db : Store) (h : db.WF) : (Store.erase key db).WF :=
  List.Pairwise.filter _ h

theorem Store.seek_WF (target : Key) (db : Store) (h : db.WF) : (Store.seek target db).WF :=
  List.Pairwise.sublist (List.dropWhile_sublist _) h

/-- After a seek to `p` no remaining key is below `p`. -/
theorem Store.seek_ge (p : Key) : ∀ (db : Store), db.WF →
    ∀ x ∈ Store.seek p db, keyLt x.1 p = false
  | [], _ => by simp [Store.seek]
  | (k, v) :: rest, h => by
    have hc := List.pairwise_cons.1 h
    intro x hx
    simp only [Store.seek, List.dropWhile_cons] at hx
    split at hx
    · exact Store.seek_ge p rest hc.2 x hx
    · rename_i hk
      have hk2 : keyLt k p = false := by simpa using hk
      rcases List.mem_cons.1 hx with hx | hx
      · rw [hx]; exact hk2
      · cases hxp : keyLt x.1 p
        · rfl
        · rw [keyLt_trans k x.1 p (hc.1 x hx) hxp] at hk2
          cases hk2

theorem markers_seek (p : Key) : ∀ (db : Store),
    (Store.seek p db).filter (fun kv => startsWith kv.1 p) =
      db.filter (fun kv => startsWith kv.1 p)
  | [] => rfl
  | (k, v) :: rest => by
    simp only [Store.seek, List.dropWhile_cons]
    split
    · rename_i hk
      have hs : startsWith k p = false := by
        cases hs : startsWith k p
        · rfl
        · rw [keyLt_of_startsWith k p hs] at hk
          cases hk
      rw [List.filter_cons_of_neg (by simp [hs])]
      exact markers_seek p rest
    · rfl

/-- The loop of `allParts`, run from a sought cursor of an ordered store, reads
exactly the marker entries. -/
theorem allPartsLoop_eq (host : ByteOrder) : ∀ (l : Store) (acc : List Int), l.WF →
    (∀ x ∈ l, keyLt x.1 kSystemParts = false) →
    allPartsLoop host l acc =
      if markersSized l then some (acc ++ (markers l).map (fun kv => trailingId host kv.1))
      else none
  | [], acc, _, _ => by simp [allPartsLoop, markersSized, markers]
  | (k, v) :: rest, acc, h, hge => by
    have hc := List.pairwise_cons.1 h
    have ih := fun a => allPartsLoop_eq host rest a hc.2
      (fun x hx => hge x (List.mem_cons_of_mem _ hx))
    simp only [allPartsLoop]
    by_cases hs : startsWith k kSystemParts = true
    · have hm : markers ((k, v) :: rest) = (k, v) :: markers rest := by
        simp [markers, hs]
      by_cases hl : k.length = prefixLen + sizeofPartitionID
      · simp only [hs, hl, if_true, ih, markersSized, hm, List.all_cons, decide_True,
          Bool.true_and, List.map_cons, List.append_assoc, List.singleton_append]
      · simp [hs, hl, markersSized, hm]
    · have hs2 : startsWith k kSystemParts = false := by simpa using hs
      have hk : keyLt k kSystemParts = false := hge (k, v) (List.mem_cons_self _ _)
      have hrest : markers rest = [] := by
        simp only [markers, List.filter_eq_nil_iff]
        intro x hx
        simp [startsWith_of_keyLt kSystemParts k x.1 hk hs2 (hc.1 x hx)]
      have hm : markers ((k, v) :: rest) = [] := by
        simp only [markers, List.filter_cons, hs2] at hrest ⊢
        simpa using hrest
      simp [hs2, markersSized, hm]

theorem allParts_eq (host : ByteOrder) (e : RocksEngine) (h : e.db_.WF) :
    allParts host e =
      if markersSized e.db_ then some ((markers e.db_).map (fun kv => trailingId host kv.1))
      else none := by
  have hm : markers (Store.seek kSystemParts e.db_) = markers e.db_ :=
    markers_seek kSystemParts e.db_
  simp only [allParts, prefixIter, if_true]
  rw [allPartsLoop_eq host _ [] (Store.seek_WF _ _ h) (Store.seek_ge _ _ h)]
  simp only [markersSized, hm, List.nil_append]

/-! ## Marker keys -/

theorem startsWith_append (p t : Key) : startsWith (p ++ t) p = true :=
  (startsWith_iff _ _).2 ⟨t, rfl⟩

theorem partKey_startsWith (host : ByteOrder) (partId : Int) :
    startsWith (partKey host partId) kSystemParts = true :=
  startsWith_append _ _

theorem partKey_length (host : ByteOrder) (partId : Int) :
    (partKey host partId).length = prefixLen + sizeofPartitionID := by
  simp [partKey, int32Bytes_length, prefixLen, sizeofPartitionID]

theorem trailingId_append (host : ByteOrder) (t : Key) (ht : t.length = 4) :
    trailingId host (kSystemParts ++ t) = int32OfBytes host t := by
  unfold trailingId
  have h : (kSystemParts ++ t).length - sizeofPartitionID = kSystemParts.length := by
    simp [ht, sizeofPartitionID]
  rw [h, List.drop_left]

theorem trailingId_partKey (host : ByteOrder) (partId : Int)
    (hlo : -2147483648 ≤ partId) (hhi : partId < 2147483648) :
    trailingId host (partKey host partId) = partId := by
  unfold partKey
  rw [trailingId_append host _ (int32Bytes_length host partId)]
  exact int32OfBytes_int32Bytes host partId hlo hhi

/-- A marker key of the checked length is the key of the identifier read from it. -/
theorem partKey_trailingId (host : ByteOrder) (k : Key)
    (hs : startsWith k kSystemParts = true) (hl : k.length = prefixLen + sizeofPartitionID) :
    partKey host (trailingId host k) = k := by
  obtain ⟨t, rfl⟩ := (startsWith_iff _ _).1 hs
  have ht : t.length = 4 := by
    simp only [List.length_append, prefixLen, sizeofPartitionID] at hl
    omega
  rw [trailingId_append host t ht]
  match t, ht with
  | [a, b, c, d], _ =>
    unfold partKey
    rw [int32Bytes_int32OfBytes]

theorem trailingId_range (host : ByteOrder) (k : Key) :
    -2147483648 ≤ trailingId host k ∧ trailingId host k < 2147483648 := by
  unfold trailingId int32OfBytes
  split
  · simp only [wrapInt32]
    omega
  · omega

/-! ## Markers under writes and deletes -/

theorem markers_insert_of_not (key : Key) (value : Value)
    (hk : startsWith key kSystemParts = false) :
    ∀ (db : Store), markers (Store.insert key value db) = markers db
  | [] => by simp [Store.insert, markers, hk]
  | (k, v) :: rest => by
    have ih := markers_insert_of_not key value hk rest
    simp only [markers] at ih ⊢
    simp only [Store.insert]
    split
    · simp [hk]
    · split
      · rename_i heq
        subst heq
        simp [hk]
      · simp only [List.filter_cons, ih]

theorem mem_markers_insert (key : Key) (value : Value) (db : Store) (x : Key × Value)
    (hx : x ∈ markers (Store.insert key value db)) : x = (key, value) ∨ x ∈ markers db := by
  simp only [markers, List.mem_filter] at hx ⊢
  rcases Store.mem_insert key value x db hx.1 with h | h
  · exact Or.inl h
  · exact Or.inr ⟨h, hx.2⟩

theorem markersSized_iff (db : Store) :
    markersSized db = true ↔
      ∀ x ∈ markers db, x.1.length = prefixLen + sizeofPartitionID := by
  simp [markersSized]

theorem markersSized_insert (key : Key) (value : Value) (db : Store)
    (h : markersSized db = true) (hl : key.length = prefixLen + sizeofPartitionID) :
    markersSized (Store.insert key value db) = true := by
  rw [markersSized_iff] at h ⊢
  intro x hx
  rcases mem_markers_insert key value db x hx with hx | hx
  · rw [hx]; exact hl
  · exact h x hx

theorem mem_markers_erase (key : Key) (db : Store) (x : Key × Value) :
    x ∈ markers (Store.erase key db) ↔ x ∈ markers db ∧ x.1 ≠ key := by
  simp only [markers, Store.erase, List.mem_filter, decide_eq_true_eq]
  tauto

theorem markersSized_erase (key : Key) (db : Store) (h : markersSized db = true) :
    markersSized (Store.erase key db) = true := by
  rw [markersSized_iff] at h ⊢
  intro x hx
  exact h x ((mem_markers_erase key db x).1 hx).1

theorem allParts_eq_some (host : ByteOrder) (e : RocksEngine) (h : e.db_.WF) (parts : List Int) :
    allParts host e = some parts ↔
      markersSized e.db_ = true ∧ parts = (markers e.db_).map (fun kv => trailingId host kv.1) := by
  rw [allParts_eq host e h]
  cases hs : markersSized e.db_
  · simp
  · simp [eq_comm]

theorem foldl_insert_WF : ∀ (kvs : List (Key × Value)) (db : Store), db.WF →
    (kvs.foldl (fun d kv => Store.insert kv.1 kv.2 d) db).WF
  | [], _, h => h
  | kv :: rest, db, h => foldl_insert_WF rest _ (Store.insert_WF kv.1 kv.2 db h)

theorem markers_foldl_insert : ∀ (kvs : List (Key × Value)) (db : Store),
    (∀ kv ∈ kvs, startsWith kv.1 kSystemParts = false) →
    markers (kvs.foldl (fun d kv => Store.insert kv.1 kv.2 d) db) = markers db
  | [], _, _ => rfl
  | kv :: rest, db, h => by
    rw [List.foldl_cons, markers_foldl_insert rest _ (fun x hx => h x (List.mem_cons_of_mem _ hx)),
      markers_insert_of_not kv.1 kv.2 (h kv (List.mem_cons_self _ _))]

theorem put_ok (e : RocksEngine) (key : Key) (value : Value) :
    (e.put Status.kOk key value).2.db_ = Store.insert key value e.db_ := rfl

theorem put_ok_WF (e : RocksEngine) (key : Key) (value : Value) (h : e.db_.WF) :
    (e.put Status.kOk key value).2.db_.WF := by
  rw [put_ok]; exact Store.insert_WF _ _ _ h

theorem put_fail (e : RocksEngine) (io : Status) (key : Key) (value : Value)
    (h : io ≠ Status.kOk) : (e.put io key value).2 = e := by
  cases io <;> first | exact absurd rfl h | rfl

theorem multiPut_ok (e : RocksEngine) (keyValues : List (Key × Value)) :
    (e.multiPut Status.kOk keyValues).2.db_ =
      keyValues.foldl (fun d kv => Store.insert kv.1 kv.2 d) e.db_ := rfl

theorem multiPut_ok_WF (e : RocksEngine) (keyValues : List (Key × Value)) (h : e.db_.WF) :
    (e.multiPut Status.kOk keyValues).2.db_.WF := by
  rw [multiPut_ok]; exact foldl_insert_WF _ _ h

theorem multiPut_fail (e : RocksEngine) (io : Status) (keyValues : List (Key × Value))
    (h : io ≠ Status.kOk) : (e.multiPut io keyValues).2 = e := by
  cases io <;> first | exact absurd rfl h | rfl

/-! ## Key order of marker keys against the order of the identifiers -/

theorem keyLt_append_left : ∀ (p x y : Key), keyLt (p ++ x) (p ++ y) = keyLt x y
  | [], _, _ => rfl
  | a :: p, x, y => by
    simp only [List.cons_append, keyLt, lt_irrefl, if_false]
    exact keyLt_append_left p x y

theorem keyLt_int32Bytes_big (a b : Int) (ha : 0 ≤ a) (ha2 : a < 2147483648)
    (hb : 0 ≤ b) (hb2 : b < 2147483648)
    (h : keyLt (int32Bytes ByteOrder.big a) (int32Bytes ByteOrder.big b) = true) : a < b := by
  obtain ⟨u, hu⟩ : ∃ u : Nat, (a % 4294967296).toNat = u := ⟨_, rfl⟩
  obtain ⟨w, hw⟩ : ∃ w : Nat, (b % 4294967296).toNat = w := ⟨_, rfl⟩
  have hu2 : (u : Int) = a := by rw [← hu]; omega
  have hw2 : (w : Int) = b := by rw [← hw]; omega
  simp only [int32Bytes, hu, hw, keyLt_cons, byteAt, Fin.ext_iff] at h
  simp only [keyLt, Bool.false_eq_true, and_false, or_false] at h
  omega

theorem keyLt_int32Bytes_little (a b : Int) (ha : 0 ≤ a) (ha2 : a < 256)
    (hb : 0 ≤ b) (hb2 : b < 256)
    (h : keyLt (int32Bytes ByteOrder.little a) (int32Bytes ByteOrder.little b) = true) :
    a < b := by
  obtain ⟨u, hu⟩ : ∃ u : Nat, (a % 4294967296).toNat = u := ⟨_, rfl⟩
  obtain ⟨w, hw⟩ : ∃ w : Nat, (b % 4294967296).toNat = w := ⟨_, rfl⟩
  have hu2 : (u : Int) = a := by rw [← hu]; omega
  have hw2 : (w : Int) = b := by rw [← hw]; omega
  simp only [int32Bytes, hu, hw, keyLt_cons, byteAt, Fin.ext_iff] at h
  simp only [keyLt, Bool.false_eq_true, and_false, or_false] at h
  omega

/-! ## The claims -/

/-- C1 (the code breaks the invariant): on a freshly opened empty store, adding
partition 7 twice leaves the cached count at 2 while `allParts` holds the single
id 7, on either byte order. -/
theorem count_cache_diverges_on_readd (host : ByteOrder) :
    construct host [] = some ⟨[], 0⟩ ∧
    addPart host ⟨[], 0⟩ Status.kOk 7 = some ⟨[(partKey host 7, [])], 1⟩ ∧
    addPart host ⟨[(partKey host 7, [])], 1⟩ Status.kOk 7 = some ⟨[(partKey host 7, [])], 2⟩ ∧
    totalPartsNum ⟨[(partKey host 7, [])], 2⟩ = 2 ∧
    allParts host ⟨[(partKey host 7, [])], 2⟩ = some [7] := by
  cases host <;> decide

/-- C2 (the code double-counts): with partition 3 resident and a count of 1,
adding the absent partition 7 twice gives a count of 3, two more than before,
while the second add leaves the resident ids unchanged. -/
theorem addPart_twice_counts_twice :
    construct ByteOrder.little [(partKey ByteOrder.little 3, [])] =
      some ⟨[(partKey ByteOrder.little 3, [])], 1⟩ ∧
    (addPart ByteOrder.little ⟨[(partKey ByteOrder.little 3, [])], 1⟩ Status.kOk 7).map
      totalPartsNum = some 2 ∧
    ((addPart ByteOrder.little ⟨[(partKey ByteOrder.little 3, [])], 1⟩ Status.kOk 7).bind
      (fun e => addPart ByteOrder.little e Status.kOk 7)).map totalPartsNum = some 3 ∧
    ((addPart ByteOrder.little ⟨[(partKey ByteOrder.little 3, [])], 1⟩ Status.kOk 7).bind
      (fun e => addPart ByteOrder.little e Status.kOk 7)).bind (allParts ByteOrder.little) =
      some [3, 7] := by
  decide

/-- C4 (the code decrements for an absent partition): with only partition 5
resident and a count of 1, removing the absent partition 3 gives a count of 0
while `allParts` still holds 5; on a fresh empty engine the same call drives the
count to -1 and the check on it fails. -/
theorem removePart_absent_decrements :
    construct ByteOrder.little [(partKey ByteOrder.little 5, [])] =
      some ⟨[(partKey ByteOrder.little 5, [])], 1⟩ ∧
    Store.lookup (partKey ByteOrder.little 3) [(partKey ByteOrder.little 5, [])] = none ∧
    removePart ByteOrder.little ⟨[(partKey ByteOrder.little 5, [])], 1⟩ Status.kOk 3 =
      some ⟨[(partKey ByteOrder.little 5, [])], 0⟩ ∧
    allParts ByteOrder.little ⟨[(partKey ByteOrder.little 5, [])], 0⟩ = some [5] ∧
    construct ByteOrder.little [] = some ⟨[], 0⟩ ∧
    removePart ByteOrder.little ⟨[], 0⟩ Status.kOk 3 = none := by
  decide

/-- C5: for every 32-bit partition id, `partKey` is the 17 reserved bytes
`__system__parts__` followed by exactly 4 bytes (21 in all), reading the last 4
bytes back the way `allParts` does gives the id again (so a scan over that one
marker returns the id), and distinct ids have distinct marker keys. -/
theorem partKey_codec_round_trip (host : ByteOrder) (partId : Int)
    (hlo : -2147483648 ≤ partId) (hhi : partId < 2147483648) :
    kSystemParts.map (fun b => Char.ofNat b.val) = "__system__parts__".toList ∧
    kSystemParts.length = 17 ∧
    (partKey host partId).take 17 = kSystemParts ∧
    ((partKey host partId).drop 17).length = 4 ∧
    (partKey host partId).length = 21 ∧
    int32OfBytes host
      ((partKey host partId).drop ((partKey host partId).length - sizeofPartitionID)) = partId ∧
    allParts host ⟨[(partKey host partId, [])], 1⟩ = some [partId] ∧
    ∀ other : Int, -2147483648 ≤ other → other < 2147483648 →
      partKey host partId = partKey host other → partId = other := by
  have hlen : kSystemParts.length = 17 := rfl
  have hrt := trailingId_partKey host partId hlo hhi
  refine ⟨by decide, hlen, ?_, ?_, ?_, hrt, ?_, ?_⟩
  · unfold partKey
    rw [← hlen, List.take_left]
  · unfold partKey
    rw [← hlen, List.drop_left, int32Bytes_length]
  · rw [partKey_length]; rfl
  · have hwf : Store.WF [(partKey host partId, ([] : Value))] := List.pairwise_singleton _ _
    rw [allParts_eq host ⟨[(partKey host partId, [])], 1⟩ hwf]
    simp [markersSized, markers, partKey_startsWith, partKey_length, hrt]
  · intro other h1 h2 heq
    rw [← hrt, heq, trailingId_partKey host other h1 h2]

theorem partKey_codec_round_trip_witness :
    (partKey ByteOrder.little 5).length = 21 ∧
    int32OfBytes ByteOrder.little ((partKey ByteOrder.little 5).drop
      ((partKey ByteOrder.little 5).length - sizeofPartitionID)) = 5 ∧
    allParts ByteOrder.little ⟨[(partKey ByteOrder.little 5, [])], 1⟩ = some [5] :=
  have h := partKey_codec_round_trip ByteOrder.little 5 (by decide) (by decide)
  ⟨h.2.2.2.2.1, h.2.2.2.2.2.1, h.2.2.2.2.2.2.1⟩

/-- C8: `get` returns SUCCEEDED exactly when the underlying lookup status is ok
(and then hands out the stored value), ERR_KEY_NOT_FOUND exactly when it is
not-found, ERR_UNKNOWN exactly for every other status; a key that is not in the
store, on a store that works, gives ERR_KEY_NOT_FOUND. -/
theorem get_outcome_mapping (e : RocksEngine) (io : Status) (key : Key) :
    ((e.get io key).1 = ResultCode.SUCCEEDED ↔ (dbGet e.db_ io key).1 = Status.kOk) ∧
    ((e.get io key).1 = ResultCode.ERR_KEY_NOT_FOUND ↔
      (dbGet e.db_ io key).1 = Status.kNotFound) ∧
    ((e.get io key).1 = ResultCode.ERR_UNKNOWN ↔
      ((dbGet e.db_ io key).1 ≠ Status.kOk ∧ (dbGet e.db_ io key).1 ≠ Status.kNotFound)) ∧
    ((e.get io key).1 = ResultCode.SUCCEEDED →
      ∃ v, e.db_.lookup key = some v ∧ (e.get io key).2 = some v) ∧
    (e.db_.lookup key = none →
      e.get Status.kOk key = (ResultCode.ERR_KEY_NOT_FOUND, none)) := by
  refine ⟨?_, ?_, ?_, ?_, ?_⟩
  · cases io <;> cases h : e.db_.lookup key <;> simp [RocksEngine.get, dbGet, Status.ok, Status.IsNotFound, h]
  · cases io <;> cases h : e.db_.lookup key <;> simp [RocksEngine.get, dbGet, Status.ok, Status.IsNotFound, h]
  · cases io <;> cases h : e.db_.lookup key <;> simp [RocksEngine.get, dbGet, Status.ok, Status.IsNotFound, h]
  · cases io <;> cases h : e.db_.lookup key <;> simp [RocksEngine.get, dbGet, Status.ok, Status.IsNotFound, h]
  · intro h
    simp [RocksEngine.get, dbGet, Status.ok, Status.IsNotFound, h]

/-- C9: `multiGet` returns SUCCEEDED exactly when every per-key lookup status is
ok (so also for no keys at all), returns ERR_UNKNOWN when some lookup is not ok,
a lookup that is merely not-found included, and never returns
ERR_KEY_NOT_FOUND. -/
theorem multiGet_all_or_nothing (e : RocksEngine) (io : Key → Status) (keys : List Key) :
    ((e.multiGet io keys).1 = ResultCode.SUCCEEDED ↔
      ∀ k ∈ keys, (dbGet e.db_ (io k) k).1 = Status.kOk) ∧
    ((∃ k ∈ keys, (dbGet e.db_ (io k) k).1 ≠ Status.kOk) →
      (e.multiGet io keys).1 = ResultCode.ERR_UNKNOWN) ∧
    ((∃ k ∈ keys, (dbGet e.db_ (io k) k).1 = Status.kNotFound) →
      (e.multiGet io keys).1 = ResultCode.ERR_UNKNOWN) ∧
    (e.multiGet io keys).1 ≠ ResultCode.ERR_KEY_NOT_FOUND ∧
    (e.multiGet io []).1 = ResultCode.SUCCEEDED := by
  have hall : (dbMultiGet e.db_ io keys).1.all (fun s => s.ok) = true ↔
      ∀ k ∈ keys, (dbGet e.db_ (io k) k).1 = Status.kOk := by
    simp [dbMultiGet, Status.ok]
  have hneg : (∃ k ∈ keys, (dbGet e.db_ (io k) k).1 ≠ Status.kOk) →
      (e.multiGet io keys).1 = ResultCode.ERR_UNKNOWN := by
    rintro ⟨k, hk, hne⟩
    have : ¬ (dbMultiGet e.db_ io keys).1.all (fun s => s.ok) = true :=
      fun h => hne (hall.1 h k hk)
    simp only [RocksEngine.multiGet, this]
    rfl
  refine ⟨?_, hneg, ?_, ?_, ?_⟩
  · rw [← hall]
    simp only [RocksEngine.multiGet]
    split <;> simp_all
  · rintro ⟨k, hk, hnf⟩
    exact hneg ⟨k, hk, by rw [hnf]; decide⟩
  · simp only [RocksEngine.multiGet]
    split <;> simp
  · rfl

/-- C10 (as stated, refuted): an I/O error of the underlying store makes
`setOption` and `setDBOption` return ERR_INVALID_ARGUMENT, not ERR_UNKNOWN. -/
theorem setOption_io_error_not_unknown :
    setOption ⟨[], 0⟩ Status.kIOError [1] [2] = ResultCode.ERR_INVALID_ARGUMENT ∧
    setOption ⟨[], 0⟩ Status.kIOError [1] [2] ≠ ResultCode.ERR_UNKNOWN ∧
    setDBOption ⟨[], 0⟩ Status.kIOError [1] [2] = ResultCode.ERR_INVALID_ARGUMENT ∧
    setDBOption ⟨[], 0⟩ Status.kIOError [1] [2] ≠ ResultCode.ERR_UNKNOWN := by
  decide

/-- C10 (amended): `setOption` and `setDBOption` return SUCCEEDED exactly when
the underlying store accepts the update and ERR_INVALID_ARGUMENT for every
failure status of the store, whatever its kind; they never return ERR_UNKNOWN. -/
theorem setOption_error_mapping (e : RocksEngine) (status : Status)
    (configKey configValue : List Byte) :
    (setOption e status configKey configValue = ResultCode.SUCCEEDED ↔ status = Status.kOk) ∧
    (setOption e status configKey configValue = ResultCode.ERR_INVALID_ARGUMENT ↔
      status ≠ Status.kOk) ∧
    setOption e status configKey configValue ≠ ResultCode.ERR_UNKNOWN ∧
    (setDBOption e status configKey configValue = ResultCode.SUCCEEDED ↔
      status = Status.kOk) ∧
    (setDBOption e status configKey configValue = ResultCode.ERR_INVALID_ARGUMENT ↔
      status ≠ Status.kOk) ∧
    setDBOption e status configKey configValue ≠ ResultCode.ERR_UNKNOWN := by
  cases status <;> simp [setOption, setDBOption, Status.ok]

/-- C3: from an ordered store whose cached count is the number of ids of
`allParts` (an int32 value), after a successful `addPart(id)` the ids of
`allParts` contain `id`; a following `removePart(id)` whose delete succeeds
returns, `allParts` no longer contains `id`, and `totalPartsNum` is exactly one
less than immediately before the `removePart` call. -/
theorem partition_registry_round_trip (host : ByteOrder) (e e1 : RocksEngine) (partId : Int)
    (parts : List Int) (hwf : e.db_.WF)
    (hlo : -2147483648 ≤ partId) (hhi : partId < 2147483648)
    (hparts : allParts host e = some parts) (hcount : totalPartsNum e = parts.length)
    (hint : totalPartsNum e < 2147483648)
    (hadd : addPart host e Status.kOk partId = some e1) :
    (∃ parts1, allParts host e1 = some parts1 ∧ partId ∈ parts1) ∧
    ∃ e2 parts2, removePart host e1 Status.kOk partId = some e2 ∧
      allParts host e2 = some parts2 ∧ partId ∉ parts2 ∧
      totalPartsNum e2 = totalPartsNum e1 - 1 := by
  have hsized := ((allParts_eq_some host e hwf parts).1 hparts).1
  simp only [totalPartsNum] at hcount hint
  -- the state after addPart
  simp only [addPart, put, dbPut, Status.ok, decide_True, if_true] at hadd
  split at hadd
  · rename_i hn
    have he1 := Option.some.inj hadd
    have hdb1 : e1.db_ = Store.insert (partKey host partId) [] e.db_ := by rw [← he1]
    have hnum1 : e1.partsNum_ = e.partsNum_ + 1 := by
      rw [← he1]
      simp only [wrapInt32] at hn ⊢
      omega
    have hwf1 : e1.db_.WF := by rw [hdb1]; exact Store.insert_WF _ _ _ hwf
    have hsized1 : markersSized e1.db_ = true := by
      rw [hdb1]; exact markersSized_insert _ _ _ hsized (partKey_length host partId)
    refine ⟨⟨_, (allParts_eq_some host e1 hwf1 _).2 ⟨hsized1, rfl⟩, ?_⟩, ?_⟩
    · refine List.mem_map.2 ⟨(partKey host partId, []), ?_, trailingId_partKey host partId hlo hhi⟩
      rw [hdb1]
      exact List.mem_filter.2 ⟨Store.mem_insert_self _ _ _, partKey_startsWith host partId⟩
    · have hn2 : 0 ≤ wrapInt32 (e1.partsNum_ - 1) ∧
          wrapInt32 (e1.partsNum_ - 1) = e1.partsNum_ - 1 := by
        simp only [wrapInt32]
        omega
      refine ⟨⟨Store.erase (partKey host partId) e1.db_, e1.partsNum_ - 1⟩, _, ?_,
        (allParts_eq_some host _ (Store.erase_WF _ _ hwf1) _).2
          ⟨markersSized_erase _ _ hsized1, rfl⟩, ?_, rfl⟩
      · have h0 : 0 ≤ e1.partsNum_ - 1 := by omega
        simp only [removePart, dbDelete, Status.ok, decide_True, if_true, hn2.2, h0]
      · intro hmem
        obtain ⟨x, hx, hxid⟩ := List.mem_map.1 hmem
        have hx2 := (mem_markers_erase _ _ x).1 hx
        have hxs : startsWith x.1 kSystemParts = true := by
          have := hx2.1
          simp only [markers, List.mem_filter] at this
          exact this.2
        have hxl := (markersSized_iff e1.db_).1 hsized1 x hx2.1
        apply hx2.2
        rw [← partKey_trailingId host x.1 hxs hxl, hxid]
  · cases hadd

theorem partition_registry_round_trip_witness :
    addPart ByteOrder.little ⟨[], 0⟩ Status.kOk 5 =
      some ⟨[(partKey ByteOrder.little 5, [])], 1⟩ ∧
    ((∃ parts1, allParts ByteOrder.little ⟨[(partKey ByteOrder.little 5, [])], 1⟩ = some parts1 ∧
        (5 : Int) ∈ parts1) ∧
      ∃ e2 parts2,
        removePart ByteOrder.little ⟨[(partKey ByteOrder.little 5, [])], 1⟩ Status.kOk 5 =
          some e2 ∧
        allParts ByteOrder.little e2 = some parts2 ∧ (5 : Int) ∉ parts2 ∧
        totalPartsNum e2 =
          totalPartsNum ⟨[(partKey ByteOrder.little 5, [])], 1⟩ - 1) :=
  ⟨by decide,
   partition_registry_round_trip ByteOrder.little ⟨[], 0⟩ ⟨[(partKey ByteOrder.little 5, [])], 1⟩
    5 [] List.Pairwise.nil (by decide) (by decide) (by decide) (by decide) (by decide)
    (by decide)⟩

/-- C6 (as stated, refuted): a caller whose key is the bytes of a marker key
changes the result of `allParts` by `put` and by `multiPut`, and a caller key
that begins with the reserved bytes and has another length makes the length
check of `allParts` fail. -/
theorem put_reserved_key_changes_allParts :
    allParts ByteOrder.little ⟨[], 0⟩ = some [] ∧
    allParts ByteOrder.little
      (put ⟨[], 0⟩ Status.kOk (partKey ByteOrder.little 9) []).2 = some [9] ∧
    allParts ByteOrder.little
      (multiPut ⟨[], 0⟩ Status.kOk [(partKey ByteOrder.little 9, [])]).2 = some [9] ∧
    allParts ByteOrder.little
      (put ⟨[], 0⟩ Status.kOk (kSystemParts ++ [120]) [1]).2 = none := by
  decide

/-- C6 (amended): on an ordered store, `put` of a key that does not begin with
the reserved bytes, and `multiPut` of entries none of whose keys begins with
them, leave the result of `allParts` unchanged, whatever the outcome of the
underlying write. -/
theorem put_keeps_allParts (host : ByteOrder) (e : RocksEngine) (io : Status)
    (key : Key) (value : Value) (keyValues : List (Key × Value)) (hwf : e.db_.WF)
    (hkey : startsWith key kSystemParts = false)
    (hkvs : ∀ kv ∈ keyValues, startsWith kv.1 kSystemParts = false) :
    allParts host (e.put io key value).2 = allParts host e ∧
    allParts host (e.multiPut io keyValues).2 = allParts host e := by
  by_cases hio : io = Status.kOk
  · subst hio
    constructor
    · rw [allParts_eq host _ (put_ok_WF e key value hwf), allParts_eq host e hwf, markersSized,
        markersSized, put_ok, markers_insert_of_not key value hkey]
    · rw [allParts_eq host _ (multiPut_ok_WF e keyValues hwf), allParts_eq host e hwf,
        markersSized, markersSized, multiPut_ok, markers_foldl_insert keyValues _ hkvs]
  · rw [put_fail e io key value hio, multiPut_fail e io keyValues hio]
    exact ⟨rfl, rfl⟩

theorem put_keeps_allParts_witness :
    allParts ByteOrder.little
        (put ⟨[(partKey ByteOrder.little 5, [])], 1⟩ Status.kOk [97] [1]).2 =
      allParts ByteOrder.little ⟨[(partKey ByteOrder.little 5, [])], 1⟩ ∧
    allParts ByteOrder.little
        (multiPut ⟨[(partKey ByteOrder.little 5, [])], 1⟩ Status.kOk [([97], [1]), ([122], [])]).2 =
      allParts ByteOrder.little ⟨[(partKey ByteOrder.little 5, [])], 1⟩ :=
  put_keeps_allParts ByteOrder.little ⟨[(partKey ByteOrder.little 5, [])], 1⟩ Status.kOk [97] [1]
    [([97], [1]), ([122], [])] (List.pairwise_singleton _ _) (by decide) (by decide)

/-- C7 (as stated, refuted): on a little-endian host partitions 1 and 256 are
returned as 256, 1; on a big-endian host partitions 1 and -1 are returned as
1, -1.  On neither byte order is the key order the ascending order of the ids. -/
theorem allParts_not_ascending :
    (((construct ByteOrder.little []).bind
        (fun e => addPart ByteOrder.little e Status.kOk 1)).bind
        (fun e => addPart ByteOrder.little e Status.kOk 256)).bind
        (fun e => allParts ByteOrder.little e) = some [256, 1] ∧
    (((construct ByteOrder.big []).bind
        (fun e => addPart ByteOrder.big e Status.kOk 1)).bind
        (fun e => addPart ByteOrder.big e Status.kOk (-1))).bind
        (fun e => allParts ByteOrder.big e) = some [1, -1] := by
  decide

/-- C7 (amended): on an ordered store, `allParts` returns exactly the 32-bit
ids whose marker key is in the store, in the bytewise order of their marker
keys; that order is the ascending order of the ids when the host is big-endian
and the ids are non-negative, and when the host is little-endian and the ids
are within 0..255. -/
theorem allParts_in_key_order (host : ByteOrder) (e : RocksEngine) (parts : List Int)
    (hwf : e.db_.WF) (h : allParts host e = some parts) :
    (∀ a : Int, a ∈ parts ↔
      (-2147483648 ≤ a ∧ a < 2147483648 ∧ ∃ v, (partKey host a, v) ∈ e.db_)) ∧
    parts.Pairwise (fun a b => keyLt (partKey host a) (partKey host b) = true) ∧
    (host = ByteOrder.big → (∀ a ∈ parts, 0 ≤ a) → parts.Pairwise (fun a b => a < b)) ∧
    (host = ByteOrder.little → (∀ a ∈ parts, 0 ≤ a ∧ a < 256) →
      parts.Pairwise (fun a b => a < b)) := by
  obtain ⟨hsized, hparts⟩ := (allParts_eq_some host e hwf parts).1 h
  have hmark : ∀ x ∈ markers e.db_, partKey host (trailingId host x.1) = x.1 := by
    intro x hx
    have hxs : startsWith x.1 kSystemParts = true := by
      simp only [markers, List.mem_filter] at hx
      exact hx.2
    exact partKey_trailingId host x.1 hxs ((markersSized_iff e.db_).1 hsized x hx)
  have hrange : ∀ a ∈ parts, -2147483648 ≤ a ∧ a < 2147483648 := by
    intro a ha
    rw [hparts] at ha
    obtain ⟨x, _, rfl⟩ := List.mem_map.1 ha
    exact trailingId_range host x.1
  have hkeys : parts.Pairwise (fun a b => keyLt (partKey host a) (partKey host b) = true) := by
    rw [hparts, List.pairwise_map]
    have hm : (markers e.db_).Pairwise (fun a b => keyLt a.1 b.1 = true) :=
      List.Pairwise.filter _ hwf
    refine List.Pairwise.imp_of_mem ?_ hm
    intro x y hx hy hxy
    rw [hmark x hx, hmark y hy]
    exact hxy
  refine ⟨?_, hkeys, ?_, ?_⟩
  · intro a
    constructor
    · intro ha
      refine ⟨(hrange a ha).1, (hrange a ha).2, ?_⟩
      rw [hparts] at ha
      obtain ⟨x, hx, rfl⟩ := List.mem_map.1 ha
      refine ⟨x.2, ?_⟩
      rw [hmark x hx]
      exact (List.mem_filter.1 hx).1
    · rintro ⟨hlo, hhi, v, hv⟩
      rw [hparts]
      exact List.mem_map.2 ⟨(partKey host a, v),
        List.mem_filter.2 ⟨hv, partKey_startsWith host a⟩, trailingId_partKey host a hlo hhi⟩
  · intro hhost hpos
    subst hhost
    refine List.Pairwise.imp_of_mem ?_ hkeys
    intro a b ha hb hab
    simp only [partKey, keyLt_append_left] at hab
    exact keyLt_int32Bytes_big a b (hpos a ha) (hrange a ha).2 (hpos b hb) (hrange b hb).2 hab
  · intro hhost hsmall
    subst hhost
    refine List.Pairwise.imp_of_mem ?_ hkeys
    intro a b ha hb hab
    simp only [partKey, keyLt_append_left] at hab
    exact keyLt_int32Bytes_little a b (hsmall a ha).1 (hsmall a ha).2 (hsmall b hb).1
      (hsmall b hb).2 hab

theorem allParts_in_key_order_witness :
    allParts ByteOrder.little
        ⟨[(partKey ByteOrder.little 256, []), (partKey ByteOrder.little 1, [])], 2⟩ =
      some [256, 1] ∧
    [(256 : Int), 1].Pairwise (fun a b =>
      keyLt (partKey ByteOrder.little a) (partKey ByteOrder.little b) = true) :=
  ⟨by decide,
   (allParts_in_key_order ByteOrder.little
      ⟨[(partKey ByteOrder.little 256, []), (partKey ByteOrder.little 1, [])], 2⟩ [256, 1]
      (by decide) (by decide)).2.1⟩

end kvstore
end nebula
